import Mathlib

/-!
# Verification of the OCFL FUSE projection engine

A shallow embedding, in Lean 4, of the core of `ocflfuse.go` from the
`x-ocfl-mount` repository: version resolution (`resolveVersion`), the
logical-path → content-path mapper (`buildFileMap`), the FUSE tree builder
(`buildFuseTree`), the S3-backed size memoization (`s3File.fetchSize` /
`s3File.Getattr`), and the local-backend read (`localFileHandle.Read`).

Go maps are embedded as association lists (a list models one iteration
order); Go's `int64` as `Int` with explicit `mod 2^64` where the source
converts to `uint64`; fallible Go functions as `Except`.
-/

namespace OcflFuse

/-! ## Version resolution (`resolveVersion`, src/ocflfuse.go:58-76)

The Go code parses the version flag with `fmt.Sscanf(v, "%d", &n)` after
stripping one optional leading `'v'`.  `Sscanf` with the `%d` verb skips
leading white space, reads an optional sign followed by at least one
decimal digit, and ignores any trailing unconsumed input (trailing bytes
after the scanned integer are not an error for `Sscanf`). -/

/-- White-space characters skipped by Go's `fmt` scanner before a `%d` verb
(the ASCII ones; this model only needs ASCII tokens). -/
def isGoSpace (c : Char) : Bool :=
  c = ' ' || c = '\t' || c = '\n' || c = '\r' || c = '\x0b' || c = '\x0c'

/-- Read a maximal nonempty run of leading decimal digits as a `Nat`;
`none` when the input does not start with a digit.  Trailing characters
after the digit run are ignored, as `fmt.Sscanf` ignores unconsumed
input. -/
def parseDigits (cs : List Char) : Option Nat :=
  let ds := cs.takeWhile (fun c => c.isDigit)
  if ds.isEmpty then none
  else some (ds.foldl (fun acc c => acc * 10 + (c.toNat - 48)) 0)

/-- Model of `fmt.Sscanf(v, "%d", &n)`: skip white space, optional sign,
then at least one decimal digit; the value is unbounded here (the Go
`int` overflow error path is not exercised by any claim). -/
def sscanfD (cs : List Char) : Option Int :=
  let s1 := cs.dropWhile isGoSpace
  match s1 with
  | '-' :: rest => (parseDigits rest).map (fun n => -(n : Int))
  | '+' :: rest => (parseDigits rest).map (fun n => (n : Int))
  | _           => (parseDigits s1).map (fun n => (n : Int))

/-- `strings.HasPrefix(v, "v")` / `v = v[1:]`: strip one optional leading
`'v'`. -/
def stripLeadingV : List Char → List Char
  | 'v' :: rest => rest
  | cs          => cs

/-- An OCFL object, as far as `resolveVersion` observes it: Go's
`obj.Version(n)` returns the head version for `n = 0`, the `n`-th version
when it exists, and `nil` otherwise. -/
structure OCFLObject (V : Type) where
  version : Int → Option V

/-- Errors produced by `resolveVersion` (`"invalid version %q"` and
`"version not found"` in the source). -/
inductive VersionError where
  | invalidVersion (tok : String)
  | versionNotFound
deriving DecidableEq, Repr

/-- Embedding of `resolveVersion` (src/ocflfuse.go:58-76): empty flag means
head (`vnum = 0`); otherwise strip an optional leading `'v'`, scan with
`%d`, reject scan failure or `n < 1`, then look the version up. -/
def resolveVersion {V : Type} (obj : OCFLObject V) (versionFlag : String) :
    Except VersionError V :=
  let parsed : Except VersionError Int :=
    if versionFlag = "" then .ok 0
    else
      match sscanfD (stripLeadingV versionFlag.data) with
      | none => .error (.invalidVersion versionFlag)
      | some n => if n < 1 then .error (.invalidVersion versionFlag) else .ok n
  match parsed with
  | .error e => .error e
  | .ok vnum =>
      match obj.version vnum with
      | none => .error .versionNotFound
      | some ver => .ok ver

/-- The token parse described by the spec for a non-empty token: strip an
optional leading `v`, parse the remainder as an integer, and require the
result positive; `none` on parse failure or a non-positive value. -/
def parseVersionToken (tok : String) : Option Int :=
  match sscanfD (stripLeadingV tok.data) with
  | none => none
  | some n => if n < 1 then none else some n

/-! ## Path mapping (`buildFileMap`, src/ocflfuse.go:79-93)

The version state (`ver.State().Paths()`, Go map logicalPath → digest) is
embedded as an association list giving one iteration order; the manifest
(Go map digest → []string) as a function, a missing key yielding the empty
list exactly as a Go map lookup yields a nil slice. -/

/-- The error from `buildFileMap`
(`"missing manifest entry for digest %s"`). -/
inductive MapError where
  | missingManifestEntry (digest : String)
deriving DecidableEq, Repr

/-- Embedding of `buildFileMap` (src/ocflfuse.go:79-93): for each
`(logicalPath, digest)` entry of the state, fail if the manifest has no
content path for the digest, otherwise map the logical path to
`objPath ++ "/" ++ contentPaths[0]`.  The whole map is returned only when
every entry succeeds; the first offending digest (in iteration order)
aborts the construction. -/
def buildFileMap (objPath : String) (manifest : String → List String) :
    List (String × String) → Except MapError (List (String × String))
  | [] => .ok []
  | (lp, dg) :: rest =>
    match manifest dg with
    | [] => .error (.missingManifestEntry dg)
    | c :: _ =>
      match buildFileMap objPath manifest rest with
      | .error e => .error e
      | .ok fs => .ok ((lp, objPath ++ "/" ++ c) :: fs)

/-! ## Remote (S3) file nodes (`s3File`, src/ocflfuse.go:259-300)

`s3File.fetchSize` guards a single `HeadObject` probe with a `sync.Once`;
`sync.Once.Do` runs its function at most once over the value's lifetime
and marks itself done even when the function records an error, while
concurrent callers of `Do` block until the single execution finishes.
The embedding therefore models one node as an explicit state and each
(serialized) `fetchSize` call as a state transition that also reports how
many backend probes it performed.  The `HeadObject` outcome is an
`Except`: an error, or a response whose `ContentLength` pointer may be
nil (`Option Int`). -/

/-- Mutable per-node state of an `s3File`: the `sync.Once` flag and the
`size` / `sizeErr` fields (Go zero values: not done, `0`, no error). -/
structure S3FileState where
  sizeOnceDone : Bool
  size : Int
  sizeErr : Option String
deriving DecidableEq, Repr

/-- A freshly created `s3File` node: probe not yet attempted. -/
def initS3FileState : S3FileState := ⟨false, 0, none⟩

/-- Embedding of `s3File.fetchSize` (src/ocflfuse.go:274-289) for one
serialized call: if the `sync.Once` already ran, return the memoized
`(size, sizeErr)` with zero backend probes; otherwise perform the probe
(`head`), record the error, or the content length when one is declared,
mark the once done, and return the new fields.  The third component
counts `HeadObject` invocations made by this call. -/
def fetchSize (head : Except String (Option Int)) (st : S3FileState) :
    (Int × Option String) × S3FileState × Nat :=
  if st.sizeOnceDone then ((st.size, st.sizeErr), st, 0)
  else
    let st' : S3FileState :=
      match head with
      | .error e => { st with sizeOnceDone := true, sizeErr := some e }
      | .ok none => { st with sizeOnceDone := true }
      | .ok (some len) => { st with sizeOnceDone := true, size := len }
    ((st'.size, st'.sizeErr), st', 1)

/-- FUSE errno outcomes used by the embedded callbacks. -/
inductive Errno where
  | eio
deriving DecidableEq, Repr

/-- Attribute record filled by `Getattr` (`out.Mode`, `out.Size`). -/
structure FuseAttr where
  mode : Nat
  size : Nat
deriving DecidableEq, Repr

/-- `0444 | syscall.S_IFREG`. -/
def regFileMode : Nat := 0o444 ||| 0x8000

/-- Go's `uint64(x)` on an `int64`: reduce modulo `2^64`. -/
def uint64OfInt (x : Int) : Nat := (x % (2 : Int) ^ 64).toNat

/-- Embedding of `s3File.Getattr` (src/ocflfuse.go:291-300): delegate to
`fetchSize`; an error becomes `EIO`, success fills mode `0444|S_IFREG`
and `out.Size = uint64(size)`. -/
def s3Getattr (head : Except String (Option Int)) (st : S3FileState) :
    Except Errno FuseAttr × S3FileState × Nat :=
  let r := fetchSize head st
  match r.1.2 with
  | some _ => (.error .eio, r.2.1, r.2.2)
  | none => (.ok ⟨regFileMode, uint64OfInt r.1.1⟩, r.2.1, r.2.2)

/-- `n` successive serialized `fetchSize` calls on one node against a fixed
backend outcome: the list of observed results, the final state, and the
total number of backend probes performed. -/
def runFetchSize (head : Except String (Option Int)) (st : S3FileState) :
    Nat → List (Int × Option String) × S3FileState × Nat
  | 0 => ([], st, 0)
  | n + 1 =>
    let r := fetchSize head st
    let rec2 := runFetchSize head r.2.1 n
    (r.1 :: rec2.1, rec2.2.1, r.2.2 + rec2.2.2)

/-! ## Local backend read (`localFileHandle.Read`, src/ocflfuse.go:381-388) -/

/-- An outcome of `os.File.ReadAt` as the Go code distinguishes it:
success, end-of-file, or any other I/O error. -/
inductive GoIOError where
  | eof
  | other (msg : String)
deriving DecidableEq, Repr

/-- Model of `os.File.ReadAt(dest, off)` on a regular file holding
`content`: reads up to `destLen` bytes starting at `off`, returning
`io.EOF` exactly when fewer than `destLen` bytes were available (and an
error for a negative offset, as `ReadAt` does). -/
def fileReadAt (content : List Nat) (off : Int) (destLen : Nat) :
    List Nat × Option GoIOError :=
  if off < 0 then ([], some (.other "negative offset"))
  else
    let bytes := (content.drop off.toNat).take destLen
    (bytes, if bytes.length < destLen then some .eof else none)

/-- The body of `localFileHandle.Read` (src/ocflfuse.go:381-388) applied
to a `ReadAt` outcome `(dest[:n], err)`: fail with `EIO` only when
`err != nil && err != io.EOF`, otherwise return the bytes read. -/
def localHandleReadOutcome (outcome : List Nat × Option GoIOError) :
    Except Errno (List Nat) :=
  match outcome.2 with
  | some .eof => .ok outcome.1
  | some (.other _) => .error .eio
  | none => .ok outcome.1

/-- `localFileHandle.Read` against the regular-file `ReadAt` model. -/
def localFileHandleRead (content : List Nat) (off : Int) (destLen : Nat) :
    Except Errno (List Nat) :=
  localHandleReadOutcome (fileReadAt content off destLen)

/-! ## FUSE tree construction (`buildFuseTree`, src/ocflfuse.go:201-222)

`buildFuseTree` iterates over the flat file map; for each logical path it
splits on `/`, walks/creates the intermediate inodes and attaches a file
inode under the last component.  A go-fuse inode is embedded as a node
with a kind (directory, or regular file carrying the content path it was
created with) and a named-children association list; `GetChild` is a
lookup, `AddChild(name, c, false)` keeps an existing child with the same
name, and in-place mutation of a child inode becomes rebuilding the list
with the modified child.  Note the source never checks the kind of an
existing child while descending and has no error path at all. -/

/-- Kind of an embedded go-fuse inode: a directory (created as an
intermediate component) or a regular file carrying its content path. -/
inductive NodeKind where
  | dirNode
  | fileNode (contentPath : String)

/-- An embedded go-fuse inode: a kind and the named children. -/
inductive FuseNode where
  | node (kind : NodeKind) (children : List (String × FuseNode))

/-- The kind of a node. -/
def FuseNode.kind : FuseNode → NodeKind
  | .node k _ => k

/-- The children of a node. -/
def FuseNode.children : FuseNode → List (String × FuseNode)
  | .node _ ch => ch

/-- Whether a node is a directory inode. -/
def FuseNode.isDir : FuseNode → Bool
  | .node .dirNode _ => true
  | .node (.fileNode _) _ => false

/-- `Inode.GetChild`: look a child up by name (first match). -/
def lookupChild : List (String × FuseNode) → String → Option FuseNode
  | [], _ => none
  | (n, c) :: rest, name => if n = name then some c else lookupChild rest name

/-- Replace the (first) child bound to `name`; models the in-place
mutation of a child inode the Go walk performs. -/
def replaceChild : List (String × FuseNode) → String → FuseNode →
    List (String × FuseNode)
  | [], _, _ => []
  | (n, c) :: rest, name, c' =>
    if n = name then (n, c') :: rest else (n, c) :: replaceChild rest name c'

/-- `strings.Split(s, "/")` (auxiliary walk over the characters with the
current component accumulated in reverse). -/
def splitOnSlashAux (acc : List Char) : List Char → List String
  | [] => [String.mk acc.reverse]
  | c :: rest =>
    if c = '/' then String.mk acc.reverse :: splitOnSlashAux [] rest
    else splitOnSlashAux (c :: acc) rest

/-- `strings.Split(s, "/")`: split at every `'/'`; always nonempty. -/
def splitOnSlash (s : String) : List String := splitOnSlashAux [] s.data

/-- One iteration of the `buildFuseTree` loop body
(src/ocflfuse.go:202-221) on the component list of one logical path: for
every component but the last, reuse the existing child of that name
(whatever its kind, as the source does) or create a directory inode; for
the last component attach a file inode carrying `content`, kept out if a
child of that name already exists (`AddChild` with `overwrite=false`).
The `[]` case never arises (`splitOnSlash` is never empty). -/
def insertParts : FuseNode → List String → String → FuseNode
  | t, [], _ => t
  | .node k ch, [filename], content =>
    match lookupChild ch filename with
    | some _ => .node k ch
    | none => .node k (ch ++ [(filename, .node (.fileNode content) [])])
  | .node k ch, d :: rest, content =>
    match lookupChild ch d with
    | some child => .node k (replaceChild ch d (insertParts child rest content))
    | none => .node k (ch ++ [(d, insertParts (.node .dirNode []) rest content)])

/-- Embedding of `buildFuseTree` (src/ocflfuse.go:201-222): fold the loop
body over the flat file map (the list order is the Go map iteration
order), starting from the mounted root inode (a directory). -/
def buildFuseTree (files : List (String × String)) : FuseNode :=
  files.foldl (fun t e => insertParts t (splitOnSlash e.1) e.2)
    (.node .dirNode [])

/-- Walk the tree along a component path. -/
def nodeAt : FuseNode → List String → Option FuseNode
  | t, [] => some t
  | .node _ ch, d :: rest =>
    match lookupChild ch d with
    | none => none
    | some c => nodeAt c rest

/-- The tree-shape observation of the spec: the directory at position `p`
has a child `name` of the given kind (`isdir`). -/
def ChildShape (t : FuseNode) (p : List String) (name : String)
    (isdir : Bool) : Prop :=
  ∃ n c, nodeAt t p = some n ∧ lookupChild n.children name = some c ∧
    c.isDir = isdir

/-- The component paths of a flat file map, in iteration order. -/
def compPaths (files : List (String × String)) : List (List String) :=
  files.map (fun e => splitOnSlash e.1)

/-- `startsB p q`: `p` is a (not necessarily proper) leading segment
of `q`. -/
def startsB : List String → List String → Bool
  | [], _ => true
  | _ :: _, [] => false
  | a :: p, b :: q => if a = b then startsB p q else false

/-- Propositional form of `startsB`. -/
def Starts (p q : List String) : Prop := startsB p q = true

/-- Invariant I2 on a component-path list, `Bool`-valued: pairwise, no
path is a leading segment of another (this subsumes key uniqueness:
distinct map keys split to distinct component lists). -/
def conflictFreeB : List (List String) → Bool
  | [] => true
  | P :: rest =>
    (rest.all (fun Q => !startsB P Q && !startsB Q P)) && conflictFreeB rest

/-- Invariant I2, propositionally. -/
def ConflictFree (S : List (List String)) : Prop := conflictFreeB S = true

/-- The residual of one component path below a first component `name`:
`some rest` exactly when the path is `name :: rest`. -/
def tailAt (name : String) : List String → Option (List String)
  | [] => none
  | n :: rest => if n = name then some rest else none

/-- The heads contributing children below one more component: entries of
`S` beginning with `name`, with that component removed. -/
def tails (S : List (List String)) (name : String) : List (List String) :=
  S.filterMap (tailAt name)

/-- `Shaped t S`: the tree `t` has exactly the shape determined by the
component-path set `S` — a child `name` exists at the root iff some path
of `S` begins with `name`; that child is a file inode iff `[name] ∈ S`;
and each child has the shape of the corresponding residual path set. -/
inductive Shaped : FuseNode → List (List String) → Prop where
  | mk : ∀ (k : NodeKind) (ch : List (String × FuseNode))
      (S : List (List String)),
      (∀ name, (lookupChild ch name).isSome = true ↔
        ∃ P, P ∈ S ∧ ∃ r, P = name :: r) →
      (∀ name c, lookupChild ch name = some c →
        (c.isDir = true ↔ [name] ∉ S)) →
      (∀ name c, lookupChild ch name = some c → Shaped c (tails S name)) →
      Shaped (.node k ch) S

/-! ## Concrete instances used by the witnesses -/

/-- A two-version object whose head is version `1` (versions named by
their number). -/
def witObj : OCFLObject Nat := ⟨fun i => if i = 0 ∨ i = 1 then some 1 else none⟩

/-- A concrete manifest: `d1` has two content copies, `d2` one, every
other digest none. -/
def witManifest : String → List String :=
  fun d => if d = "d1" then ["c1", "c1copy"] else if d = "d2" then ["c2"] else []

/-! # Theorems -/

/-! ## Version resolution -/

/-- `resolveVersion` restated through `parseVersionToken`: the code paths
of src/ocflfuse.go:58-76 in one equation. -/
theorem resolveVersion_eq {V : Type} (obj : OCFLObject V) (tok : String) :
    resolveVersion obj tok =
      if tok = "" then
        (match obj.version 0 with
          | none => .error .versionNotFound
          | some v => .ok v)
      else
        match parseVersionToken tok with
        | none => .error (.invalidVersion tok)
        | some n =>
          match obj.version n with
          | none => .error .versionNotFound
          | some v => .ok v := by
  unfold resolveVersion parseVersionToken
  by_cases h : tok = ""
  · simp [h]
  · simp only [if_neg h]
    cases hs : sscanfD (stripLeadingV tok.data) with
    | none => simp
    | some n => by_cases hlt : n < 1 <;> simp [hlt]

/-- Claim C4 (confirmed): the empty token resolves to the head version;
a non-empty token is parsed by stripping an optional leading `v` and
scanning the remainder as a positive integer, any parse failure or
non-positive value failing with the invalid-version error; a parsed
version number with no corresponding version fails with
version-not-found; otherwise resolution returns that version. -/
theorem resolveVersion_contract {V : Type} (obj : OCFLObject V) (tok : String) :
    (tok = "" → ∀ hv, obj.version 0 = some hv →
      resolveVersion obj tok = .ok hv) ∧
    (tok ≠ "" → parseVersionToken tok = none →
      resolveVersion obj tok = .error (.invalidVersion tok)) ∧
    (tok ≠ "" → ∀ n, parseVersionToken tok = some n → obj.version n = none →
      resolveVersion obj tok = .error .versionNotFound) ∧
    (tok ≠ "" → ∀ n v, parseVersionToken tok = some n → obj.version n = some v →
      resolveVersion obj tok = .ok v) := by
  refine ⟨?_, ?_, ?_, ?_⟩
  · intro h hv hval
    rw [resolveVersion_eq, if_pos h, hval]
  · intro hne hp
    rw [resolveVersion_eq, if_neg hne, hp]
  · intro hne n hp hv
    rw [resolveVersion_eq, if_neg hne, hp]
    simp [hv]
  · intro hne n v hp hv
    rw [resolveVersion_eq, if_neg hne, hp]
    simp [hv]

/-- Witness for C4 on the concrete two-version object. -/
theorem resolveVersion_contract_witness :
    resolveVersion witObj "" = .ok 1 ∧
    resolveVersion witObj "v1" = .ok 1 ∧
    resolveVersion witObj "zzz" = .error (.invalidVersion "zzz") ∧
    resolveVersion witObj "v9" = .error .versionNotFound := by
  refine ⟨?_, ?_, ?_, ?_⟩
  · exact (resolveVersion_contract witObj "").1 rfl 1 (by decide)
  · exact (resolveVersion_contract witObj "v1").2.2.2 (by decide) 1 1
      (by decide) (by decide)
  · exact (resolveVersion_contract witObj "zzz").2.1 (by decide) (by decide)
  · exact (resolveVersion_contract witObj "v9").2.2.1 (by decide) 9
      (by decide) (by decide)

/-- Counterexample to claim C5: the non-canonical token `"v01"` is not
rejected — `Sscanf` with `%d` parses `"01"` as `1`, so resolution
succeeds with version 1 on an object that has one. -/
theorem resolveVersion_v01_counterexample :
    resolveVersion witObj "v01" = .ok 1 := rfl

/-- Claim C5 (corrected): version resolution accepts `""` (head) and
`"v1"`, rejects `"v0"` (non-positive) and `"vX"` (non-numeric), but it
does NOT reject the non-canonical `"v01"`: leading zeros are accepted by
the `%d` scan and `"v01"` resolves to version 1. -/
theorem resolveVersion_token_forms {V : Type} (obj : OCFLObject V)
    (hv v1 : V) (hhead : obj.version 0 = some hv)
    (h1 : obj.version 1 = some v1) :
    resolveVersion obj "" = .ok hv ∧
    resolveVersion obj "v1" = .ok v1 ∧
    resolveVersion obj "v01" = .ok v1 ∧
    resolveVersion obj "v0" = .error (.invalidVersion "v0") ∧
    resolveVersion obj "vX" = .error (.invalidVersion "vX") := by
  have e1 : parseVersionToken "v1" = some 1 := by decide
  have e01 : parseVersionToken "v01" = some 1 := by decide
  have e0 : parseVersionToken "v0" = none := by decide
  have eX : parseVersionToken "vX" = none := by decide
  refine ⟨?_, ?_, ?_, ?_, ?_⟩
  · rw [resolveVersion_eq, if_pos rfl, hhead]
  · rw [resolveVersion_eq, if_neg (by decide), e1]
    simp [h1]
  · rw [resolveVersion_eq, if_neg (by decide), e01]
    simp [h1]
  · rw [resolveVersion_eq, if_neg (by decide), e0]
  · rw [resolveVersion_eq, if_neg (by decide), eX]

/-- Witness for the amended C5 on the concrete two-version object. -/
theorem resolveVersion_token_forms_witness :
    resolveVersion witObj "" = .ok 1 ∧
    resolveVersion witObj "v1" = .ok 1 ∧
    resolveVersion witObj "v01" = .ok 1 ∧
    resolveVersion witObj "v0" = .error (.invalidVersion "v0") ∧
    resolveVersion witObj "vX" = .error (.invalidVersion "vX") :=
  resolveVersion_token_forms witObj 1 1 (by decide) (by decide)

/-! ## Remote attributes with an absent content length -/

/-- Claim C10 (confirmed): when the `HeadObject` probe succeeds but
declares no content length (`ContentLength == nil`), `fetchSize` returns
size `0` with no error, and `Getattr` succeeds reporting size `0`. -/
theorem s3Getattr_nil_length_ok :
    fetchSize (.ok none) initS3FileState = ((0, none), ⟨true, 0, none⟩, 1) ∧
    s3Getattr (.ok none) initS3FileState =
      (.ok ⟨regFileMode, 0⟩, ⟨true, 0, none⟩, 1) :=
  ⟨rfl, rfl⟩

/-! ## Local backend reads -/

/-- With a non-negative offset, the local read never fails: `ReadAt`
returns the available bytes and at worst `io.EOF`, which the handler
treats as success. -/
theorem localFileHandleRead_nonneg (content : List Nat) (off : Int)
    (destLen : Nat) (h : 0 ≤ off) :
    localFileHandleRead content off destLen =
      .ok ((content.drop off.toNat).take destLen) := by
  unfold localFileHandleRead fileReadAt localHandleReadOutcome
  rw [if_neg (not_lt.mpr h)]
  by_cases hlt : content.length - off.toNat < destLen <;> simp [hlt]

/-- Claim C9 (confirmed): a local-backend read at or beyond end-of-file
returns zero bytes (success), a read extending partially beyond
end-of-file returns exactly the available bytes (a short read, success),
and only a non-EOF `ReadAt` error fails the call with `EIO`. -/
theorem localRead_eof_semantics (content : List Nat) (off : Int)
    (destLen : Nat) :
    (0 ≤ off → (content.length : Int) ≤ off →
      localFileHandleRead content off destLen = .ok []) ∧
    (0 ≤ off → off.toNat < content.length →
      content.length < off.toNat + destLen →
      localFileHandleRead content off destLen = .ok (content.drop off.toNat) ∧
      (content.drop off.toNat).length = content.length - off.toNat) ∧
    (∀ bytes : List Nat, localHandleReadOutcome (bytes, some .eof) = .ok bytes) ∧
    (∀ (bytes : List Nat) (msg : String),
      localHandleReadOutcome (bytes, some (.other msg)) = .error .eio) ∧
    (∀ bytes : List Nat, localHandleReadOutcome (bytes, none) = .ok bytes) := by
  refine ⟨?_, ?_, fun _ => rfl, fun _ _ => rfl, fun _ => rfl⟩
  · intro h0 hbeyond
    rw [localFileHandleRead_nonneg content off destLen h0]
    have hlen : content.length ≤ off.toNat := (Int.le_toNat h0).mpr hbeyond
    rw [List.drop_eq_nil_of_le hlen, List.take_nil]
  · intro h0 hin hover
    rw [localFileHandleRead_nonneg content off destLen h0]
    have hd : (content.drop off.toNat).length = content.length - off.toNat :=
      List.length_drop off.toNat content
    have hle : (content.drop off.toNat).length ≤ destLen := by
      rw [hd]
      omega
    rw [List.take_of_length_le hle]
    exact ⟨rfl, hd⟩

/-- Witness for C9: reads beyond and straddling end-of-file on a
three-byte file. -/
theorem localRead_eof_semantics_witness :
    localFileHandleRead [1, 2, 3] 5 4 = .ok [] ∧
    localFileHandleRead [1, 2, 3] 1 4 = .ok [2, 3] := by
  constructor
  · exact (localRead_eof_semantics [1, 2, 3] 5 4).1 (by decide) (by decide)
  · exact ((localRead_eof_semantics [1, 2, 3] 1 4).2.1 (by decide) (by decide)
      (by decide)).1

/-! ## Path mapping -/

/-- Claim C6 (confirmed): under Invariant I1 (every referenced digest has
a non-empty manifest entry), `buildFileMap` succeeds with a map having
exactly the state's keys (hence the same size), and each logical path is
bound to the object path joined with the FIRST content path of its
digest. -/
theorem buildFileMap_complete (objPath : String)
    (manifest : String → List String) (state : List (String × String))
    (h : ∀ p ∈ state, manifest p.2 ≠ []) :
    ∃ m, buildFileMap objPath manifest state = .ok m ∧
      m.map Prod.fst = state.map Prod.fst ∧
      m.length = state.length ∧
      ∀ p ∈ state, ∀ c cs, manifest p.2 = c :: cs →
        (p.1, objPath ++ "/" ++ c) ∈ m := by
  induction state with
  | nil => exact ⟨[], rfl, rfl, rfl, by simp⟩
  | cons e rest ih =>
    obtain ⟨lp, dg⟩ := e
    have hd : manifest dg ≠ [] := h (lp, dg) (List.mem_cons_self _ _)
    cases hm : manifest dg with
    | nil => exact absurd hm hd
    | cons c cs =>
      obtain ⟨m, hbm, hkeys, hlen, hmem⟩ :=
        ih (fun p hp => h p (List.mem_cons_of_mem _ hp))
      refine ⟨(lp, objPath ++ "/" ++ c) :: m, ?_, ?_, ?_, ?_⟩
      · simp [buildFileMap, hm, hbm]
      · simp [hkeys]
      · simp [hlen]
      · rintro p hp c' cs' hm'
        rcases List.mem_cons.mp hp with heq | hmem'
        · subst heq
          rw [hm] at hm'
          injection hm' with h1 h2
          subst h1
          exact List.mem_cons_self _ _
        · exact List.mem_cons_of_mem _ (hmem p hmem' c' cs' hm')

/-- Witness for C6 on a concrete two-file state. -/
theorem buildFileMap_complete_witness :
    ∃ m, buildFileMap "obj" witManifest [("a", "d1"), ("b", "d2")] = .ok m ∧
      m.map Prod.fst = [("a", "d1"), ("b", "d2")].map Prod.fst ∧
      m.length = [("a", "d1"), ("b", "d2")].length ∧
      ∀ p ∈ [("a", "d1"), ("b", "d2")], ∀ c cs, witManifest p.2 = c :: cs →
        (p.1, "obj" ++ "/" ++ c) ∈ m :=
  buildFileMap_complete "obj" witManifest [("a", "d1"), ("b", "d2")]
    (by decide)

/-- Claim C7 (confirmed): when some digest referenced by the state has no
manifest entry, `buildFileMap` fails with `missingManifestEntry` naming
such a digest, and no map at all is produced (the `Except` is an
error). -/
theorem buildFileMap_missing_digest (objPath : String)
    (manifest : String → List String) (state : List (String × String))
    (h : ∃ p ∈ state, manifest p.2 = []) :
    ∃ dg, buildFileMap objPath manifest state =
        .error (.missingManifestEntry dg) ∧
      ∃ lp, (lp, dg) ∈ state ∧ manifest dg = [] := by
  induction state with
  | nil =>
    obtain ⟨p, hp, _⟩ := h
    exact absurd hp (List.not_mem_nil p)
  | cons e rest ih =>
    obtain ⟨lp, dg⟩ := e
    cases hm : manifest dg with
    | nil =>
      exact ⟨dg, by simp [buildFileMap, hm], lp, List.mem_cons_self _ _, hm⟩
    | cons c cs =>
      have h' : ∃ p ∈ rest, manifest p.2 = [] := by
        rcases h with ⟨p, hp, hpm⟩
        rcases List.mem_cons.mp hp with heq | hmem
        · rw [heq] at hpm
          rw [hpm] at hm
          cases hm
        · exact ⟨p, hmem, hpm⟩
      obtain ⟨dg', hbm, lp', hmem', hdg'⟩ := ih h'
      refine ⟨dg', ?_, lp', List.mem_cons_of_mem _ hmem', hdg'⟩
      simp [buildFileMap, hm, hbm]

/-- Witness for C7: a state referencing an unknown digest. -/
theorem buildFileMap_missing_digest_witness :
    ∃ dg, buildFileMap "obj" witManifest [("a", "d1"), ("x", "dX")] =
        .error (.missingManifestEntry dg) ∧
      ∃ lp, (lp, dg) ∈ [("a", "d1"), ("x", "dX")] ∧ witManifest dg = [] :=
  buildFileMap_missing_digest "obj" witManifest [("a", "d1"), ("x", "dX")]
    (by decide)

/-! ## Size memoization on remote nodes -/

/-- Once the `sync.Once` ran, `fetchSize` is a pure read of the memoized
fields: no backend probe, state unchanged. -/
theorem fetchSize_done_eq (head : Except String (Option Int))
    (st : S3FileState) (h : st.sizeOnceDone = true) :
    fetchSize head st = ((st.size, st.sizeErr), st, 0) := by
  simp [fetchSize, h]

/-- After any `fetchSize` call the node is in the done state: the
`Unattributed → Attributed` transition is one-way. -/
theorem fetchSize_done_after (head : Except String (Option Int))
    (st : S3FileState) : ((fetchSize head st).2.1).sizeOnceDone = true := by
  by_cases hst : st.sizeOnceDone
  · simp [fetchSize, hst]
  · cases head with
    | error e => simp [fetchSize, hst]
    | ok o => cases o <;> simp [fetchSize, hst]

/-- A `fetchSize` call reports exactly the `(size, sizeErr)` fields of the
state it leaves behind. -/
theorem fetchSize_result_eq (head : Except String (Option Int))
    (st : S3FileState) :
    (fetchSize head st).1 =
      (((fetchSize head st).2.1).size, ((fetchSize head st).2.1).sizeErr) := by
  by_cases hst : st.sizeOnceDone
  · simp [fetchSize, hst]
  · cases head with
    | error e => simp [fetchSize, hst]
    | ok o => cases o <;> simp [fetchSize, hst]

/-- The first `fetchSize` call on a fresh node performs exactly one
backend probe. -/
theorem fetchSize_init_calls (head : Except String (Option Int)) :
    (fetchSize head initS3FileState).2.2 = 1 := by
  cases head with
  | error e => rfl
  | ok o => cases o <;> rfl

/-- Repeated `fetchSize` calls from a done state replay the memoized
result with zero backend probes. -/
theorem runFetchSize_done_eq (head : Except String (Option Int))
    (st : S3FileState) (h : st.sizeOnceDone = true) (n : Nat) :
    runFetchSize head st n = (List.replicate n (st.size, st.sizeErr), st, 0) := by
  induction n with
  | zero => rfl
  | succ n ih => simp [runFetchSize, fetchSize_done_eq head st h, ih,
      List.replicate_succ]

/-- Claim C2 (confirmed): the size fetch is exactly-once memoized — over
any number `n ≥ 1` of serialized `fetchSize` calls on a fresh node the
backend probe runs exactly once, every caller observes the identical
result, a node already attributed is read without any backend call and
without a state change, and the node transitions one-way into the
attributed (`sizeOnceDone`) state on the very first call. -/
theorem fetchSize_exactly_once (head : Except String (Option Int)) (n : Nat)
    (h : 1 ≤ n) :
    (runFetchSize head initS3FileState n).2.2 = 1 ∧
    (∀ r ∈ (runFetchSize head initS3FileState n).1,
      r = (fetchSize head initS3FileState).1) ∧
    (∀ st : S3FileState, st.sizeOnceDone = true →
      fetchSize head st = ((st.size, st.sizeErr), st, 0)) ∧
    (∀ st : S3FileState, ((fetchSize head st).2.1).sizeOnceDone = true) := by
  obtain ⟨m, rfl⟩ : ∃ m, n = m + 1 :=
    ⟨n - 1, (Nat.succ_pred_eq_of_pos h).symm⟩
  have hdone : ((fetchSize head initS3FileState).2.1).sizeOnceDone = true :=
    fetchSize_done_after head initS3FileState
  refine ⟨?_, ?_, fetchSize_done_eq head, fetchSize_done_after head⟩
  · simp [runFetchSize, runFetchSize_done_eq head _ hdone m,
      fetchSize_init_calls head]
  · intro r hr
    simp only [runFetchSize, runFetchSize_done_eq head _ hdone m] at hr
    rcases List.mem_cons.mp hr with heq | hmem
    · exact heq
    · rw [List.eq_of_mem_replicate hmem, fetchSize_result_eq]

/-- Witness for C2: three calls against a probe declaring 42 bytes. -/
theorem fetchSize_exactly_once_witness :
    (runFetchSize (.ok (some 42)) initS3FileState 3).2.2 = 1 ∧
    (∀ r ∈ (runFetchSize (.ok (some 42)) initS3FileState 3).1,
      r = (fetchSize (.ok (some 42)) initS3FileState).1) ∧
    (∀ st : S3FileState, st.sizeOnceDone = true →
      fetchSize (.ok (some 42)) st = ((st.size, st.sizeErr), st, 0)) ∧
    (∀ st : S3FileState,
      ((fetchSize (.ok (some 42)) st).2.1).sizeOnceDone = true) :=
  fetchSize_exactly_once (.ok (some 42)) 3 (by decide)

/-- Counterexample to claim C1: with a failing probe, two successive
`fetchSize` calls on the same node perform only ONE backend probe in
total (the trailing `1`), and the second call returns the memoized
failure instead of probing again. -/
theorem fetchSize_failure_retry_counterexample :
    runFetchSize (.error "boom") initS3FileState 2 =
      ([(0, some "boom"), (0, some "boom")], ⟨true, 0, some "boom"⟩, 1) := rfl

/-- Claim C1 (corrected): the probe failure IS cached — `sync.Once` marks
the node done even on failure, so over any `n ≥ 1` calls the backend is
probed exactly once, every call observes the same memoized error, a call
on the failed node makes no probe and changes nothing, and `Getattr` on
the failed node keeps failing with `EIO` without retrying the fetch. -/
theorem fetchSize_failure_cached (e : String) (n : Nat) (h : 1 ≤ n) :
    (runFetchSize (.error e) initS3FileState n).2.2 = 1 ∧
    (∀ r ∈ (runFetchSize (.error e) initS3FileState n).1, r = (0, some e)) ∧
    fetchSize (.error e) ⟨true, 0, some e⟩ =
      ((0, some e), ⟨true, 0, some e⟩, 0) ∧
    (s3Getattr (.error e) ⟨true, 0, some e⟩).1 = .error .eio ∧
    (s3Getattr (.error e) ⟨true, 0, some e⟩).2.2 = 0 := by
  obtain ⟨m, rfl⟩ : ∃ m, n = m + 1 :=
    ⟨n - 1, (Nat.succ_pred_eq_of_pos h).symm⟩
  have hst : (fetchSize (.error e) initS3FileState).2.1 =
      (⟨true, 0, some e⟩ : S3FileState) := rfl
  refine ⟨?_, ?_, rfl, rfl, rfl⟩
  · simp [runFetchSize, hst,
      runFetchSize_done_eq (.error e) (⟨true, 0, some e⟩ : S3FileState) rfl m,
      fetchSize_init_calls]
  · intro r hr
    simp only [runFetchSize, hst,
      runFetchSize_done_eq (.error e) (⟨true, 0, some e⟩ : S3FileState) rfl m]
      at hr
    rcases List.mem_cons.mp hr with heq | hmem
    · exact heq
    · exact List.eq_of_mem_replicate hmem

/-- Witness for the amended C1 at a concrete error and two calls. -/
theorem fetchSize_failure_cached_witness :
    (runFetchSize (.error "boom") initS3FileState 2).2.2 = 1 ∧
    (∀ r ∈ (runFetchSize (.error "boom") initS3FileState 2).1,
      r = (0, some "boom")) ∧
    fetchSize (.error "boom") ⟨true, 0, some "boom"⟩ =
      ((0, some "boom"), ⟨true, 0, some "boom"⟩, 0) ∧
    (s3Getattr (.error "boom") ⟨true, 0, some "boom"⟩).1 = .error .eio ∧
    (s3Getattr (.error "boom") ⟨true, 0, some "boom"⟩).2.2 = 0 :=
  fetchSize_failure_cached "boom" 2 (by decide)

/-! ## Tree construction on conflicting input -/

/-- Counterexample to claim C3: `buildFuseTree` has no error path at all
(its Go signature returns nothing); applied to the conflicting map
`{"a": X, "a/b.txt": Y}` in this iteration order it silently produces a
tree — the file inode `a` even receives the child `b.txt`, since the
walk never checks the kind of an existing child — instead of failing
with a structural-conflict error. -/
theorem buildFuseTree_conflict_counterexample :
    buildFuseTree [("a", "X"), ("a/b.txt", "Y")] =
      .node .dirNode
        [("a", .node (.fileNode "X") [("b.txt", .node (.fileNode "Y") [])])] :=
  rfl

/-- Claim C3 (corrected): tree construction performs no conflict
detection and cannot fail; on `{"a": X, "a/b.txt": Y}` it silently
builds a tree whose shape depends on the iteration order — with `"a"`
first, the file inode `a` gets the child `b.txt`; with `"a/b.txt"`
first, the directory `a` survives and the file `X` is silently
dropped (`AddChild` without overwrite keeps the existing child). -/
theorem buildFuseTree_conflict_total :
    buildFuseTree [("a", "X"), ("a/b.txt", "Y")] =
      .node .dirNode
        [("a", .node (.fileNode "X") [("b.txt", .node (.fileNode "Y") [])])] ∧
    buildFuseTree [("a/b.txt", "Y"), ("a", "X")] =
      .node .dirNode
        [("a", .node .dirNode [("b.txt", .node (.fileNode "Y") [])])] :=
  ⟨rfl, rfl⟩

/-! ## Tree shape determinism: leading-segment and lookup lemmas -/

/-- Peeling a common first component off a leading-segment relation. -/
theorem starts_cons_iff (a b : String) (p q : List String) :
    Starts (a :: p) (b :: q) ↔ a = b ∧ Starts p q := by
  by_cases hab : a = b <;> simp [Starts, startsB, hab]

/-- `Starts p q` says `q` extends `p` by some suffix. -/
theorem starts_iff (p q : List String) : Starts p q ↔ ∃ r, q = p ++ r := by
  induction p generalizing q with
  | nil => simp [Starts, startsB]
  | cons a p ih =>
    cases q with
    | nil => simp [Starts, startsB]
    | cons b q =>
      rw [starts_cons_iff]
      constructor
      · rintro ⟨rfl, hs⟩
        obtain ⟨r, rfl⟩ := (ih q).mp hs
        exact ⟨r, rfl⟩
      · rintro ⟨r, hr⟩
        injection hr with h1 h2
        subst h1
        subst h2
        exact ⟨rfl, (ih _).mpr ⟨r, rfl⟩⟩

/-- `tailAt` recognizes exactly the paths with the given first
component. -/
theorem tailAt_eq_some_iff (name : String) (P X : List String) :
    tailAt name P = some X ↔ P = name :: X := by
  cases P with
  | nil => simp [tailAt]
  | cons n rest =>
    by_cases h : n = name
    · subst h; simp [tailAt]
    · simp [tailAt, h]

/-- Membership in a residual path set. -/
theorem mem_tails (S : List (List String)) (name : String) (X : List String) :
    X ∈ tails S name ↔ (name :: X) ∈ S := by
  simp [tails, List.mem_filterMap, tailAt_eq_some_iff]

/-- `tails` distributes over list append. -/
theorem tails_append (S S' : List (List String)) (name : String) :
    tails (S ++ S') name = tails S name ++ tails S' name :=
  List.filterMap_append S S' (tailAt name)

/-- `GetChild` over an appended children list. -/
theorem lookupChild_append (ch ch' : List (String × FuseNode)) (name : String) :
    lookupChild (ch ++ ch') name =
      match lookupChild ch name with
      | some c => some c
      | none => lookupChild ch' name := by
  induction ch with
  | nil => simp [lookupChild]
  | cons e rest ih =>
    obtain ⟨n, c⟩ := e
    by_cases h : n = name <;> simp [lookupChild, h, ih]

/-- Replacing a present child rebinds its name. -/
theorem lookupChild_replace_self (ch : List (String × FuseNode))
    (d : String) (c c' : FuseNode) (h : lookupChild ch d = some c) :
    lookupChild (replaceChild ch d c') d = some c' := by
  induction ch with
  | nil => simp [lookupChild] at h
  | cons e rest ih =>
    obtain ⟨n, cc⟩ := e
    by_cases hn : n = d
    · simp [lookupChild, replaceChild, hn]
    · simp only [lookupChild, replaceChild, if_neg hn] at h ⊢
      exact ih h

/-- Replacing one child leaves every other name's lookup unchanged. -/
theorem lookupChild_replace_ne (ch : List (String × FuseNode)) (d : String)
    (c' : FuseNode) (name : String) (h : name ≠ d) :
    lookupChild (replaceChild ch d c') name = lookupChild ch name := by
  induction ch with
  | nil => simp [replaceChild]
  | cons e rest ih =>
    obtain ⟨n, cc⟩ := e
    by_cases hn : n = d
    · subst hn
      have hne : n ≠ name := fun he => h he.symm
      simp [replaceChild, lookupChild, hne]
    · simp only [replaceChild, if_neg hn]
      by_cases hnn : n = name
      · subst hnn
        simp [lookupChild]
      · simp [lookupChild, hnn, ih]

/-- `strings.Split` never yields an empty list (auxiliary form). -/
theorem splitOnSlashAux_ne_nil (cs : List Char) :
    ∀ acc, splitOnSlashAux acc cs ≠ [] := by
  induction cs with
  | nil => intro acc; simp [splitOnSlashAux]
  | cons c rest ih =>
    intro acc
    by_cases h : c = '/' <;> simp [splitOnSlashAux, h]
    exact ih _

/-- `strings.Split(s, "/")` never yields an empty list. -/
theorem splitOnSlash_ne_nil (s : String) : splitOnSlash s ≠ [] :=
  splitOnSlashAux_ne_nil s.data []

/-- A failed `startsB` test is exactly the negation of `Starts`. -/
theorem startsB_eq_false_iff (p q : List String) :
    startsB p q = false ↔ ¬ Starts p q := by
  cases h : startsB p q <;> simp [Starts, h]

/-- Invariant I2 unfolded to pairwise non-overlap of component paths. -/
theorem conflictFree_iff (S : List (List String)) :
    ConflictFree S ↔
      S.Pairwise (fun P Q => ¬ Starts P Q ∧ ¬ Starts Q P) := by
  induction S with
  | nil => simp [ConflictFree, conflictFreeB]
  | cons P rest ih =>
    have hunfold : conflictFreeB (P :: rest) =
        ((rest.all fun Q => !startsB P Q && !startsB Q P) &&
          conflictFreeB rest) := rfl
    constructor
    · intro h
      rw [ConflictFree, hunfold, Bool.and_eq_true, List.all_eq_true] at h
      rw [List.pairwise_cons]
      refine ⟨fun Q hQ => ?_, ih.mp h.2⟩
      have hq := h.1 Q hQ
      rw [Bool.and_eq_true, Bool.not_eq_true', Bool.not_eq_true'] at hq
      exact ⟨(startsB_eq_false_iff P Q).mp hq.1,
        (startsB_eq_false_iff Q P).mp hq.2⟩
    · intro h
      rw [List.pairwise_cons] at h
      rw [ConflictFree, hunfold, Bool.and_eq_true, List.all_eq_true]
      refine ⟨fun Q hQ => ?_, ih.mpr h.2⟩
      rw [Bool.and_eq_true, Bool.not_eq_true', Bool.not_eq_true']
      exact ⟨(startsB_eq_false_iff P Q).mpr (h.1 Q hQ).1,
        (startsB_eq_false_iff Q P).mpr (h.1 Q hQ).2⟩

/-- `Shaped` depends only on the membership of the path set. -/
theorem shaped_congr : ∀ {t : FuseNode} {S : List (List String)},
    Shaped t S → ∀ S', (∀ P, P ∈ S ↔ P ∈ S') → Shaped t S' := by
  intro t S h
  induction h with
  | mk k ch S h1 h2 h3 ih =>
    intro S' hmem
    refine Shaped.mk k ch S' ?_ ?_ ?_
    · intro name
      rw [h1 name]
      constructor
      · rintro ⟨P, hP, r, rfl⟩; exact ⟨name :: r, (hmem _).mp hP, r, rfl⟩
      · rintro ⟨P, hP, r, rfl⟩; exact ⟨name :: r, (hmem _).mpr hP, r, rfl⟩
    · intro name c hc
      rw [h2 name c hc]
      exact not_congr (hmem [name])
    · intro name c hc
      exact ih name c hc (tails S' name)
        (fun X => (mem_tails S name X).trans
          ((hmem (name :: X)).trans (mem_tails S' name X).symm))

/-- In a tree shaped by `S`, the observable shape is canonical: position
`p` has a child `name` of kind `isdir` exactly when some path of `S`
extends `p ++ [name]`, the kind being a file iff `p ++ [name]` itself is
a path of `S`.  The right-hand side depends only on the membership of
`S`. -/
theorem shaped_childShape_iff : ∀ (p : List String) {t : FuseNode}
    {S : List (List String)}, Shaped t S → ∀ (name : String) (b : Bool),
    (ChildShape t p name b ↔
      ((∃ P, P ∈ S ∧ Starts (p ++ [name]) P) ∧
        (b = true ↔ (p ++ [name]) ∉ S))) := by
  intro p
  induction p with
  | nil =>
    intro t S h name b
    cases h with
    | mk k ch S h1 h2 h3 =>
      constructor
      · rintro ⟨nd, c, hnd, hc, hdir⟩
        have hnd' : nd = FuseNode.node k ch := by
          rw [show nodeAt (FuseNode.node k ch) [] =
            some (FuseNode.node k ch) from rfl] at hnd
          exact (Option.some.inj hnd).symm
        subst hnd'
        have hc' : lookupChild ch name = some c := hc
        have hsome : (lookupChild ch name).isSome = true := by
          rw [hc']; rfl
        obtain ⟨P, hP, r, rfl⟩ := (h1 name).mp hsome
        refine ⟨⟨name :: r, hP, ?_⟩, ?_⟩
        · rw [List.nil_append, starts_cons_iff]
          exact ⟨rfl, by simp [Starts, startsB]⟩
        · rw [List.nil_append, ← hdir]
          exact h2 name c hc'
      · rintro ⟨⟨P, hP, hst⟩, hb⟩
        rw [List.nil_append] at hst hb
        obtain ⟨r, rfl⟩ := (starts_iff _ _).mp hst
        have hsome : (lookupChild ch name).isSome = true :=
          (h1 name).mpr ⟨name :: r, by simpa using hP, r, by simp⟩
        obtain ⟨c, hc⟩ := Option.isSome_iff_exists.mp hsome
        have hkind := h2 name c hc
        have hcb : c.isDir = b := by
          have : (c.isDir = true) ↔ (b = true) := hkind.trans hb.symm
          cases hcd : c.isDir <;> cases b <;> simp_all
        exact ⟨FuseNode.node k ch, c, rfl, hc, hcb⟩
  | cons d p' ih =>
    intro t S h name b
    cases h with
    | mk k ch S h1 h2 h3 =>
      cases hl : lookupChild ch d with
      | none =>
        constructor
        · rintro ⟨nd, c, hnd, hc, hdir⟩
          rw [show nodeAt (FuseNode.node k ch) (d :: p') = none from by
            simp [nodeAt, hl]] at hnd
          exact absurd hnd (by simp)
        · rintro ⟨⟨P, hP, hst⟩, hb⟩
          exfalso
          rw [List.cons_append, starts_iff] at hst
          obtain ⟨r, rfl⟩ := hst
          have hsome : (lookupChild ch d).isSome = true :=
            (h1 d).mpr ⟨_, hP, _, rfl⟩
          rw [hl] at hsome
          exact absurd hsome (by simp)
      | some c0 =>
        have hnode : nodeAt (FuseNode.node k ch) (d :: p') = nodeAt c0 p' := by
          simp [nodeAt, hl]
        have hchar := ih (h3 d c0 hl) name b
        have hcs : ChildShape (FuseNode.node k ch) (d :: p') name b ↔
            ChildShape c0 p' name b := by
          unfold ChildShape
          rw [hnode]
        rw [hcs, hchar]
        constructor
        · rintro ⟨⟨P', hP', hst'⟩, hb'⟩
          refine ⟨⟨d :: P', (mem_tails S d P').mp hP', ?_⟩, ?_⟩
          · rw [List.cons_append, starts_cons_iff]
            exact ⟨rfl, hst'⟩
          · rw [List.cons_append, hb']
            exact not_congr (mem_tails S d (p' ++ [name]))
        · rintro ⟨⟨P, hP, hst⟩, hb'⟩
          rw [List.cons_append] at hst hb'
          rw [starts_iff] at hst
          obtain ⟨r, rfl⟩ := hst
          rw [List.cons_append] at hP
          refine ⟨⟨(p' ++ [name]) ++ r, (mem_tails S d _).mpr hP,
            (starts_iff _ _).mpr ⟨r, rfl⟩⟩, ?_⟩
          rw [hb']
          exact (not_congr (mem_tails S d (p' ++ [name]))).symm

/-- `GetChild` on a singleton children list, hit. -/
theorem lookupChild_single_self (d : String) (c : FuseNode) :
    lookupChild [(d, c)] d = some c := by simp [lookupChild]

/-- `GetChild` on a singleton children list, miss. -/
theorem lookupChild_single_ne (d name : String) (c : FuseNode)
    (h : name ≠ d) : lookupChild [(d, c)] name = none := by
  simp [lookupChild, if_neg (Ne.symm h)]

/-- Appending children after a missed lookup. -/
theorem lookupChild_append_none (ch ch' : List (String × FuseNode))
    (name : String) (h : lookupChild ch name = none) :
    lookupChild (ch ++ ch') name = lookupChild ch' name := by
  rw [lookupChild_append, h]

/-- Appending children after a hit lookup. -/
theorem lookupChild_append_some (ch ch' : List (String × FuseNode))
    (name : String) (c : FuseNode) (h : lookupChild ch name = some c) :
    lookupChild (ch ++ ch') name = some c := by
  rw [lookupChild_append, h]

/-- Residual paths of a singleton set whose element begins with the
queried component. -/
theorem tails_single_cons_self (d : String) (X : List String) :
    tails [d :: X] d = [X] := by simp [tails, tailAt]

/-- Residual paths of a singleton set whose element begins with a
different component. -/
theorem tails_single_cons_ne (d name : String) (X : List String)
    (h : name ≠ d) : tails [d :: X] name = [] := by
  simp [tails, tailAt, if_neg (Ne.symm h)]

/-- A component with no path of `S` beginning with it has no residual
paths. -/
theorem tails_eq_nil (S : List (List String)) (name : String)
    (h : ∀ X, (name :: X) ∉ S) : tails S name = [] := by
  rw [List.eq_nil_iff_forall_not_mem]
  intro X hX
  exact h X ((mem_tails S name X).mp hX)

/-- `insertParts` equation: last component already present. -/
theorem insertParts_file_some (k : NodeKind) (ch : List (String × FuseNode))
    (f content : String) (c0 : FuseNode) (h : lookupChild ch f = some c0) :
    insertParts (.node k ch) [f] content = .node k ch := by
  rw [insertParts.eq_2, h]

/-- `insertParts` equation: attach a fresh file child. -/
theorem insertParts_file_none (k : NodeKind) (ch : List (String × FuseNode))
    (f content : String) (h : lookupChild ch f = none) :
    insertParts (.node k ch) [f] content =
      .node k (ch ++ [(f, .node (.fileNode content) [])]) := by
  rw [insertParts.eq_2, h]

/-- `insertParts` equation: descend into an existing child. -/
theorem insertParts_dir_some (k : NodeKind) (ch : List (String × FuseNode))
    (d r : String) (rs : List String) (content : String) (child : FuseNode)
    (h : lookupChild ch d = some child) :
    insertParts (.node k ch) (d :: r :: rs) content =
      .node k (replaceChild ch d (insertParts child (r :: rs) content)) := by
  rw [insertParts.eq_3 content k ch d (r :: rs) (by simp), h]

/-- `insertParts` equation: create a fresh intermediate directory. -/
theorem insertParts_dir_none (k : NodeKind) (ch : List (String × FuseNode))
    (d r : String) (rs : List String) (content : String)
    (h : lookupChild ch d = none) :
    insertParts (.node k ch) (d :: r :: rs) content =
      .node k (ch ++ [(d, insertParts (.node .dirNode []) (r :: rs) content)]) := by
  rw [insertParts.eq_3 content k ch d (r :: rs) (by simp), h]

/-- Inserting a path never changes the kind of the root it starts from
(the walk only ever adds or mutates children). -/
theorem insertParts_kind (P : List String) (t : FuseNode) (content : String) :
    (insertParts t P content).kind = t.kind := by
  cases t with
  | node k ch =>
    cases P with
    | nil => rfl
    | cons d rest =>
      cases rest with
      | nil =>
        cases hl : lookupChild ch d with
        | some c0 => rw [insertParts_file_some k ch d content c0 hl]
        | none =>
          rw [insertParts_file_none k ch d content hl]
          rfl
      | cons r rs =>
        cases hl : lookupChild ch d with
        | some child =>
          rw [insertParts_dir_some k ch d r rs content child hl]
          rfl
        | none =>
          rw [insertParts_dir_none k ch d r rs content hl]
          rfl

/-- `isDir` only looks at the kind. -/
theorem isDir_eq_kind (t : FuseNode) :
    t.isDir = (match t.kind with
      | .dirNode => true
      | .fileNode _ => false) := by
  cases t with
  | node k ch => cases k <;> rfl

/-- Inserting a path preserves `isDir` of the node it starts from. -/
theorem insertParts_isDir (P : List String) (t : FuseNode) (content : String) :
    (insertParts t P content).isDir = t.isDir := by
  rw [isDir_eq_kind, isDir_eq_kind, insertParts_kind]

/-- A fresh file leaf is shaped by the singleton set holding the empty
residual path. -/
theorem shaped_file_leaf (content : String) :
    Shaped (.node (.fileNode content) []) [[]] := by
  refine Shaped.mk _ _ _ ?_ ?_ ?_
  · intro name
    simp [lookupChild]
  · intro name c hc
    simp [lookupChild] at hc
  · intro name c hc
    simp [lookupChild] at hc

/-- A fresh empty directory is shaped by the empty path set. -/
theorem shaped_empty_dir (k : NodeKind) : Shaped (.node k []) [] := by
  refine Shaped.mk _ _ _ ?_ ?_ ?_
  · intro name
    simp [lookupChild]
  · intro name c hc
    simp [lookupChild] at hc
  · intro name c hc
    simp [lookupChild] at hc

/-- One `buildFuseTree` loop iteration preserves `Shaped`: inserting a
nonempty component path `P` that neither extends nor is extended by any
already-inserted path takes a tree shaped by `S` to a tree shaped by
`S ++ [P]`. -/
theorem insertParts_shaped : ∀ (P : List String) (content : String)
    (t : FuseNode) (S : List (List String)),
    Shaped t S → P ≠ [] →
    (∀ Q, Q ∈ S → ¬ Starts P Q ∧ ¬ Starts Q P) →
    Shaped (insertParts t P content) (S ++ [P]) := by
  intro P
  induction P with
  | nil =>
    intro content t S hS hne hcompat
    exact absurd rfl hne
  | cons d rest ih =>
    intro content t S hS hne hcompat
    cases hS with
    | mk k ch S h1 h2 h3 =>
      cases rest with
      | nil =>
        cases hl : lookupChild ch d with
        | some c0 =>
          exfalso
          have hsome : (lookupChild ch d).isSome = true := by rw [hl]; rfl
          obtain ⟨Q, hQ, rr, rfl⟩ := (h1 d).mp hsome
          refine (hcompat (d :: rr) hQ).1 ?_
          rw [starts_cons_iff]
          exact ⟨rfl, by simp [Starts, startsB]⟩
        | none =>
          rw [insertParts_file_none k ch d content hl]
          have htails : tails S d = [] := by
            refine tails_eq_nil S d (fun X hX => ?_)
            have hsome : (lookupChild ch d).isSome = true :=
              (h1 d).mpr ⟨d :: X, hX, X, rfl⟩
            rw [hl] at hsome
            exact absurd hsome (by simp)
          refine Shaped.mk _ _ _ ?_ ?_ ?_
          · intro name
            by_cases hn : name = d
            · subst hn
              rw [lookupChild_append_none ch _ name hl,
                lookupChild_single_self]
              exact iff_of_true rfl ⟨[name], by simp, [], rfl⟩
            · cases hcn : lookupChild ch name with
              | some c =>
                rw [lookupChild_append_some ch _ name c hcn]
                refine iff_of_true rfl ?_
                obtain ⟨Q, hQ, rr, rfl⟩ := (h1 name).mp (by rw [hcn]; rfl)
                exact ⟨name :: rr, by simp [hQ], rr, rfl⟩
              | none =>
                rw [lookupChild_append_none ch _ name hcn,
                  lookupChild_single_ne d name _ hn]
                refine iff_of_false (by simp) ?_
                rintro ⟨Q, hQ, rr, rfl⟩
                rcases List.mem_append.mp hQ with hmem | hmem
                · have hsm : (lookupChild ch name).isSome = true :=
                    (h1 name).mpr ⟨name :: rr, hmem, rr, rfl⟩
                  rw [hcn] at hsm
                  exact absurd hsm (by simp)
                · have heq : name :: rr = [d] := by simpa using hmem
                  injection heq with hh _
                  exact hn hh
          · intro name c hc
            by_cases hn : name = d
            · subst hn
              rw [lookupChild_append_none ch _ name hl,
                lookupChild_single_self] at hc
              injection hc with hc
              subst hc
              refine iff_of_false (by simp [FuseNode.isDir]) ?_
              simp
            · cases hcn : lookupChild ch name with
              | some c' =>
                rw [lookupChild_append_some ch _ name c' hcn] at hc
                injection hc with hc
                subst hc
                rw [h2 name c' hcn]
                have hmm : ([name] ∈ S ++ [[d]]) ↔ [name] ∈ S := by
                  simp [hn]
                exact (not_congr hmm).symm
              | none =>
                rw [lookupChild_append_none ch _ name hcn,
                  lookupChild_single_ne d name _ hn] at hc
                exact absurd hc (by simp)
          · intro name c hc
            by_cases hn : name = d
            · subst hn
              rw [lookupChild_append_none ch _ name hl,
                lookupChild_single_self] at hc
              injection hc with hc
              subst hc
              rw [tails_append, htails, tails_single_cons_self]
              exact shaped_file_leaf content
            · cases hcn : lookupChild ch name with
              | some c' =>
                rw [lookupChild_append_some ch _ name c' hcn] at hc
                injection hc with hc
                subst hc
                rw [tails_append, tails_single_cons_ne d name [] hn,
                  List.append_nil]
                exact h3 name c' hcn
              | none =>
                rw [lookupChild_append_none ch _ name hcn,
                  lookupChild_single_ne d name _ hn] at hc
                exact absurd hc (by simp)
      | cons r rs =>
        have hrest : (r :: rs : List String) ≠ [] := by simp
        have hcompat' : ∀ Q', Q' ∈ tails S d →
            ¬ Starts (r :: rs) Q' ∧ ¬ Starts Q' (r :: rs) := by
          intro Q' hQ'
          have hQS := (mem_tails S d Q').mp hQ'
          have hcq := hcompat (d :: Q') hQS
          constructor
          · intro hs
            exact hcq.1 (by rw [starts_cons_iff]; exact ⟨rfl, hs⟩)
          · intro hs
            exact hcq.2 (by rw [starts_cons_iff]; exact ⟨rfl, hs⟩)
        cases hl : lookupChild ch d with
        | some child =>
          rw [insertParts_dir_some k ch d r rs content child hl]
          have hins := ih content child (tails S d) (h3 d child hl) hrest
            hcompat'
          refine Shaped.mk _ _ _ ?_ ?_ ?_
          · intro name
            by_cases hn : name = d
            · subst hn
              rw [lookupChild_replace_self ch name child
                (insertParts child (r :: rs) content) hl]
              exact iff_of_true rfl ⟨name :: r :: rs, by simp, r :: rs, rfl⟩
            · rw [lookupChild_replace_ne ch d _ name hn]
              rw [h1 name]
              constructor
              · rintro ⟨Q, hQ, rr, rfl⟩
                exact ⟨name :: rr, by simp [hQ], rr, rfl⟩
              · rintro ⟨Q, hQ, rr, rfl⟩
                rcases List.mem_append.mp hQ with hmem | hmem
                · exact ⟨name :: rr, hmem, rr, rfl⟩
                · exfalso
                  have heq : name :: rr = d :: r :: rs := by simpa using hmem
                  injection heq with hh _
                  exact hn hh
          · intro name c hc
            by_cases hn : name = d
            · subst hn
              rw [lookupChild_replace_self ch name child
                (insertParts child (r :: rs) content) hl] at hc
              injection hc with hc
              subst hc
              rw [insertParts_isDir, h2 name child hl]
              have hmm : ([name] ∈ S ++ [name :: r :: rs]) ↔ [name] ∈ S := by
                simp
              exact (not_congr hmm).symm
            · rw [lookupChild_replace_ne ch d _ name hn] at hc
              rw [h2 name c hc]
              have hmm : ([name] ∈ S ++ [d :: r :: rs]) ↔ [name] ∈ S := by
                simp
              exact (not_congr hmm).symm
          · intro name c hc
            by_cases hn : name = d
            · subst hn
              rw [lookupChild_replace_self ch name child
                (insertParts child (r :: rs) content) hl] at hc
              injection hc with hc
              subst hc
              rw [tails_append, tails_single_cons_self]
              exact hins
            · rw [lookupChild_replace_ne ch d _ name hn] at hc
              rw [tails_append, tails_single_cons_ne d name (r :: rs) hn,
                List.append_nil]
              exact h3 name c hc
        | none =>
          rw [insertParts_dir_none k ch d r rs content hl]
          have htails : tails S d = [] := by
            refine tails_eq_nil S d (fun X hX => ?_)
            have hsome : (lookupChild ch d).isSome = true :=
              (h1 d).mpr ⟨d :: X, hX, X, rfl⟩
            rw [hl] at hsome
            exact absurd hsome (by simp)
          have hins := ih content (.node .dirNode []) [] (shaped_empty_dir _)
            hrest (fun Q hQ => absurd hQ (List.not_mem_nil Q))
          refine Shaped.mk _ _ _ ?_ ?_ ?_
          · intro name
            by_cases hn : name = d
            · subst hn
              rw [lookupChild_append_none ch _ name hl,
                lookupChild_single_self]
              exact iff_of_true rfl ⟨name :: r :: rs, by simp, r :: rs, rfl⟩
            · cases hcn : lookupChild ch name with
              | some c =>
                rw [lookupChild_append_some ch _ name c hcn]
                refine iff_of_true rfl ?_
                obtain ⟨Q, hQ, rr, rfl⟩ := (h1 name).mp (by rw [hcn]; rfl)
                exact ⟨name :: rr, by simp [hQ], rr, rfl⟩
              | none =>
                rw [lookupChild_append_none ch _ name hcn,
                  lookupChild_single_ne d name _ hn]
                refine iff_of_false (by simp) ?_
                rintro ⟨Q, hQ, rr, rfl⟩
                rcases List.mem_append.mp hQ with hmem | hmem
                · have hsm : (lookupChild ch name).isSome = true :=
                    (h1 name).mpr ⟨name :: rr, hmem, rr, rfl⟩
                  rw [hcn] at hsm
                  exact absurd hsm (by simp)
                · have heq : name :: rr = d :: r :: rs := by simpa using hmem
                  injection heq with hh _
                  exact hn hh
          · intro name c hc
            by_cases hn : name = d
            · subst hn
              rw [lookupChild_append_none ch _ name hl,
                lookupChild_single_self] at hc
              injection hc with hc
              subst hc
              rw [insertParts_isDir]
              refine iff_of_true rfl ?_
              intro hmem
              rcases List.mem_append.mp hmem with hmem | hmem
              · have hnil : ([] : List String) ∈ tails S name :=
                  (mem_tails S name []).mpr hmem
                rw [htails] at hnil
                exact absurd hnil (List.not_mem_nil _)
              · simp at hmem
            · cases hcn : lookupChild ch name with
              | some c' =>
                rw [lookupChild_append_some ch _ name c' hcn] at hc
                injection hc with hc
                subst hc
                rw [h2 name c' hcn]
                have hmm : ([name] ∈ S ++ [d :: r :: rs]) ↔ [name] ∈ S := by
                  simp
                exact (not_congr hmm).symm
              | none =>
                rw [lookupChild_append_none ch _ name hcn,
                  lookupChild_single_ne d name _ hn] at hc
                exact absurd hc (by simp)
          · intro name c hc
            by_cases hn : name = d
            · subst hn
              rw [lookupChild_append_none ch _ name hl,
                lookupChild_single_self] at hc
              injection hc with hc
              subst hc
              rw [tails_append, htails, tails_single_cons_self]
              exact hins
            · cases hcn : lookupChild ch name with
              | some c' =>
                rw [lookupChild_append_some ch _ name c' hcn] at hc
                injection hc with hc
                subst hc
                rw [tails_append, tails_single_cons_ne d name (r :: rs) hn,
                  List.append_nil]
                exact h3 name c' hcn
              | none =>
                rw [lookupChild_append_none ch _ name hcn,
                  lookupChild_single_ne d name _ hn] at hc
                exact absurd hc (by simp)

/-- Folding the `buildFuseTree` loop over a pairwise conflict-free list
of paths, starting from a tree shaped by the already-inserted set,
yields a tree shaped by the union. -/
theorem buildLoop_shaped : ∀ (l : List (String × String)) (t : FuseNode)
    (S : List (List String)),
    Shaped t S →
    (∀ P, P ∈ compPaths l → ∀ Q, Q ∈ S → ¬ Starts P Q ∧ ¬ Starts Q P) →
    (compPaths l).Pairwise (fun P Q => ¬ Starts P Q ∧ ¬ Starts Q P) →
    Shaped (l.foldl (fun t e => insertParts t (splitOnSlash e.1) e.2) t)
      (S ++ compPaths l) := by
  intro l
  induction l with
  | nil =>
    intro t S hS _ _
    rw [show compPaths ([] : List (String × String)) = [] from rfl,
      List.append_nil]
    exact hS
  | cons e l ih =>
    intro t S hS hcompat hpw
    have hcons : compPaths (e :: l) = splitOnSlash e.1 :: compPaths l := rfl
    rw [hcons] at hpw
    rw [List.pairwise_cons] at hpw
    have hstep := insertParts_shaped (splitOnSlash e.1) e.2 t S hS
      (splitOnSlash_ne_nil e.1)
      (fun Q hQ => hcompat _ (by simp [hcons]) Q hQ)
    have hcompat' : ∀ P, P ∈ compPaths l →
        ∀ Q, Q ∈ S ++ [splitOnSlash e.1] → ¬ Starts P Q ∧ ¬ Starts Q P := by
      intro P hPm Q hQ
      rcases List.mem_append.mp hQ with hQs | hQe
      · exact hcompat P (by simp [hcons, hPm]) Q hQs
      · have hQe' : Q = splitOnSlash e.1 := by simpa using hQe
        subst hQe'
        have hsw := hpw.1 P hPm
        exact ⟨hsw.2, hsw.1⟩
    have ih' := ih (insertParts t (splitOnSlash e.1) e.2)
      (S ++ [splitOnSlash e.1]) hstep hcompat' hpw.2
    have hassoc : S ++ compPaths (e :: l) =
        (S ++ [splitOnSlash e.1]) ++ compPaths l := by simp [hcons]
    rw [hassoc]
    exact ih'

/-- Under Invariant I2, `buildFuseTree` produces a tree shaped exactly by
the component paths of its input map. -/
theorem buildFuseTree_shaped (l : List (String × String))
    (h : ConflictFree (compPaths l)) :
    Shaped (buildFuseTree l) (compPaths l) := by
  have hb := buildLoop_shaped l (.node .dirNode []) [] (shaped_empty_dir _)
    (fun P _ Q hQ => absurd hQ (List.not_mem_nil Q))
    ((conflictFree_iff _).mp h)
  simpa [buildFuseTree] using hb

/-- Claim C8 (confirmed): for flat file maps satisfying Invariant I2, the
tree shape — which `(name, kind)` children exist under every directory
position — is identical for every iteration order of the map; and on
`a/b.txt, a/c.txt` in either order the builder yields one directory `a`
with exactly the file children `b.txt` and `c.txt` (children list order,
not shape, is all that differs). -/
theorem buildFuseTree_shape_deterministic :
    (∀ (l₁ l₂ : List (String × String)) (p : List String) (name : String)
      (b : Bool), l₁.Perm l₂ → ConflictFree (compPaths l₁) →
      (ChildShape (buildFuseTree l₁) p name b ↔
        ChildShape (buildFuseTree l₂) p name b)) ∧
    buildFuseTree [("a/b.txt", "X"), ("a/c.txt", "Y")] =
      .node .dirNode [("a", .node .dirNode
        [("b.txt", .node (.fileNode "X") []),
         ("c.txt", .node (.fileNode "Y") [])])] ∧
    buildFuseTree [("a/c.txt", "Y"), ("a/b.txt", "X")] =
      .node .dirNode [("a", .node .dirNode
        [("c.txt", .node (.fileNode "Y") []),
         ("b.txt", .node (.fileNode "X") [])])] := by
  refine ⟨?_, rfl, rfl⟩
  intro l₁ l₂ p name b hperm hcf₁
  have hpaths : (compPaths l₁).Perm (compPaths l₂) := hperm.map _
  have hcf₂ : ConflictFree (compPaths l₂) := by
    rw [conflictFree_iff]
    exact (hpaths.pairwise_iff (fun {P Q} h => ⟨h.2, h.1⟩)).mp
      ((conflictFree_iff _).mp hcf₁)
  have hs₁ := buildFuseTree_shaped l₁ hcf₁
  have hs₂ := buildFuseTree_shaped l₂ hcf₂
  rw [shaped_childShape_iff p hs₁ name b, shaped_childShape_iff p hs₂ name b]
  have hmem : ∀ P, P ∈ compPaths l₁ ↔ P ∈ compPaths l₂ :=
    fun P => hpaths.mem_iff
  constructor
  · rintro ⟨⟨P, hP, hst⟩, hb⟩
    exact ⟨⟨P, (hmem P).mp hP, hst⟩, by rw [hb]; exact not_congr (hmem _)⟩
  · rintro ⟨⟨P, hP, hst⟩, hb⟩
    exact ⟨⟨P, (hmem P).mpr hP, hst⟩,
      by rw [hb]; exact (not_congr (hmem _)).symm⟩

/-- Witness for C8: the two iteration orders of the two-file map agree on
the child `b.txt` beneath directory `a`. -/
theorem buildFuseTree_shape_deterministic_witness :
    ChildShape (buildFuseTree [("a/b.txt", "X"), ("a/c.txt", "Y")])
      ["a"] "b.txt" false ↔
    ChildShape (buildFuseTree [("a/c.txt", "Y"), ("a/b.txt", "X")])
      ["a"] "b.txt" false :=
  buildFuseTree_shape_deterministic.1
    [("a/b.txt", "X"), ("a/c.txt", "Y")] [("a/c.txt", "Y"), ("a/b.txt", "X")]
    ["a"] "b.txt" false (by decide)
    (show conflictFreeB
      (compPaths [("a/b.txt", "X"), ("a/c.txt", "Y")]) = true by decide)

end OcflFuse
